import Mathlib

/-!
Verification of the `brace-config` value tree (crate `brace-config`).

The development shallowly embeds the core data model and operations of the
crate: the three-variant `Value` tree (`src/value/mod.rs`), the path type
`Key` (`src/value/key.rs`), the mutating path engine (`Value::set`,
`Array::set` in `src/value/array.rs`, `Table::set` in `src/value/table.rs`),
the read path (`Value::get`, `Array::get`, `Table::get`) and the typed
decoder (`src/value/de.rs`).  The encoder (`ser.rs`) and the `Entry`
newtype (`entry.rs`) are not present in the source tree and are modelled
from the specification where needed.

Tables are embedded as association lists (the source uses a `HashMap`;
the claims under consideration are insensitive to iteration order).
Machine integers are embedded as `Nat`/`Int` with explicit range checks
mirroring the Rust parsing functions.  A potential `Vec::insert` panic is
modelled as a distinguished `SetResult.panic` outcome.
-/

namespace BraceConfig

/-- The value tree of `src/value/mod.rs`: `Entry` holds scalar text,
`Array` an ordered sequence, `Table` a key-value map (embedded as an
association list). -/
inductive Value where
  | entry : String → Value
  | array : List Value → Value
  | table : List (String × Value) → Value

/-- Outcome of a `set` call: Rust `Ok`, Rust `Err`, or a process abort
(`Vec::insert` out-of-bounds panic), which the embedding keeps separate
from ordinary returned errors. -/
inductive SetResult where
  | ok : SetResult
  | err : String → SetResult
  | panic : String → SetResult
deriving DecidableEq, Repr

/-- Whether a `set` outcome is a modelled panic (process abort). -/
def SetResult.isPanicB : SetResult → Bool
  | .panic _ => true
  | _ => false

/-- Association-list lookup, embedding `HashMap::get`. -/
def alistLookup (k : String) : List (String × Value) → Option Value
  | [] => none
  | (k', v) :: rest => if k' = k then some v else alistLookup k rest

/-- Association-list insert-or-replace, embedding `HashMap` insertion
through the entry API. -/
def alistInsert (k : String) (v : Value) : List (String × Value) → List (String × Value)
  | [] => [(k, v)]
  | (k', v') :: rest => if k' = k then (k, v) :: rest else (k', v') :: alistInsert k v rest

/-- Numeric value of an ascii digit character, `none` otherwise. -/
def digitVal (c : Char) : Option Nat :=
  if '0' ≤ c ∧ c ≤ '9' then some (c.toNat - 48) else none

/-- Accumulating decimal parser over a character list. -/
def parseDigitsAux (acc : Nat) : List Char → Option Nat
  | [] => some acc
  | c :: cs =>
    match digitVal c with
    | some d => parseDigitsAux (acc * 10 + d) cs
    | none => none

/-- Parse a non-empty all-digit character list as a decimal `Nat`. -/
def parseDigits : List Char → Option Nat
  | [] => none
  | cs => parseDigitsAux 0 cs

/-- Embedding of Rust `str::parse::<usize>` (64-bit): an optional leading
plus sign, one or more ascii digits, value below `2 ^ 64`. -/
def parseUsize (s : String) : Option Nat :=
  match s.data with
  | [] => none
  | c :: rest =>
    match parseDigits (if c = '+' then rest else c :: rest) with
    | some n => if n < 2 ^ 64 then some n else none
    | none => none

/-- Decimal digit characters of a natural number, most significant first. -/
def natChars (n : Nat) : List Char :=
  if n = 0 then ['0'] else ((Nat.digits 10 n).map Nat.digitChar).reverse

/-- Embedding of Rust `usize::to_string` / `u64::to_string`. -/
def natToString (n : Nat) : String :=
  ⟨natChars n⟩

/-- List insertion at a position, embedding `Vec::insert` (guarded by
`vecInsert` below). -/
def listInsertAt (i : Nat) (v : Value) : List Value → List Value
  | [] => [v]
  | x :: xs =>
    match i with
    | 0 => v :: x :: xs
    | j + 1 => x :: listInsertAt j v xs

/-- Embedding of `Vec::insert`: panics (modelled as `SetResult.panic`)
when the position exceeds the current length. -/
def vecInsert (a : List Value) (i : Nat) (v : Value) : SetResult × List Value :=
  if i ≤ a.length then (.ok, listInsertAt i v a) else (.panic "insertion index out of bounds", a)

/-- Embedding of the re-keying loop in `Value::set`: every element of the
array is stored in the fresh table under its stringified index. -/
def rekeyFrom (i : Nat) (a : List Value) (t : List (String × Value)) :
    List (String × Value) :=
  match a with
  | [] => t
  | v :: vs => rekeyFrom (i + 1) vs (alistInsert (natToString i) v t)

mutual

/-- Embedding of `Value::set` (`src/value/mod.rs`).  The key is peeked, the
node variant dispatched; an `Entry` is promoted to a fresh `Array` or
`Table` (kept only on success), an `Array` addressed by a non-integer
segment is re-keyed into a `Table` first.  The value argument is the
(possibly failed) result of encoding the input, consumed at the terminal
write exactly as `val.serialize(ValueSerializer)?`. -/
def valueSet (v : Value) (k : List String) (x : Except String Value) :
    SetResult × Value :=
  match k.head? with
  | some h =>
    match v with
    | .entry _ =>
      match parseUsize h with
      | some _ =>
        match arraySet [] k x with
        | (.ok, a') => (.ok, .array a')
        | (r, _) => (r, v)
      | none =>
        match tableSet [] k x with
        | (.ok, t') => (.ok, .table t')
        | (r, _) => (r, v)
    | .array a =>
      match parseUsize h with
      | some _ =>
        match arraySet a k x with
        | (r, a') => (r, .array a')
      | none =>
        match tableSet (rekeyFrom 0 a []) k x with
        | (.ok, t') => (.ok, .table t')
        | (r, _) => (r, v)
    | .table t =>
      match tableSet t k x with
      | (r, t') => (r, .table t')
  | none => (.err "empty key", v)
termination_by (k.length, 1)

/-- Embedding of `Array::set` (`src/value/array.rs`). -/
def arraySet (a : List Value) (k : List String) (x : Except String Value) :
    SetResult × List Value :=
  match k with
  | [] => (.err "empty key", a)
  | h :: rest =>
    match parseUsize h with
    | none => (.err ("invalid key " ++ h), a)
    | some index =>
      match a[index]? with
      | some item =>
        match rest with
        | r1 :: rs =>
          match valueSet item (r1 :: rs) x with
          | (r, item') => (r, a.set index item')
        | [] =>
          match x with
          | .ok xv => (.ok, a.set index xv)
          | .error e => (.err e, a)
      | none =>
        if index = 0 then
          match rest with
          | r1 :: rs =>
            match valueSet (.entry "") (r1 :: rs) x with
            | (.ok, v') => vecInsert a index v'
            | (r, _) => (r, a)
          | [] =>
            match x with
            | .ok xv => vecInsert a index xv
            | .error e => (.err e, a)
        else
          match a[index - 1]? with
          | some _ =>
            match rest with
            | r1 :: rs =>
              match valueSet (.entry "") (r1 :: rs) x with
              | (.ok, v') => vecInsert a index v'
              | (r, _) => (r, a)
            | [] =>
              match x with
              | .ok xv => vecInsert a index xv
              | .error e => (.err e, a)
          | none => (.err ("invalid index " ++ natToString index), a)
termination_by (k.length, 0)

/-- Embedding of `Table::set` (`src/value/table.rs`).  Note the fetch-or-
create of a default empty `Entry` happens before the terminal encoding is
examined, exactly as `self.0.entry(head).or_insert_with(Value::entry)`. -/
def tableSet (t : List (String × Value)) (k : List String) (x : Except String Value) :
    SetResult × List (String × Value) :=
  match k with
  | [] => (.err "empty key", t)
  | h :: rest =>
    let item := (alistLookup h t).getD (.entry "")
    match rest with
    | r1 :: rs =>
      match valueSet item (r1 :: rs) x with
      | (r, item') => (r, alistInsert h item' t)
    | [] =>
      match x with
      | .ok xv => (.ok, alistInsert h xv t)
      | .error e => (.err e, alistInsert h item t)
termination_by (k.length, 0)

end

mutual

/-- Embedding of `Value::get` (`src/value/mod.rs`): an `Entry` node always
yields an error; `Array`/`Table` delegate with the same key.  The function
locates the addressed node; typed decoding of the terminal node is applied
on top by the `configGet...` wrappers, exactly where the source calls
`V::deserialize(ValueDeserializer::new(val))`. -/
def valueGetNode (v : Value) (k : List String) : Except String Value :=
  match v with
  | .entry _ => .error "call get on entry variant"
  | .array a => arrayGetNode a k
  | .table t => tableGetNode t k
termination_by (k.length, 1)

/-- Embedding of the traversal part of `Array::get` (`src/value/array.rs`). -/
def arrayGetNode (a : List Value) (k : List String) : Except String Value :=
  match k with
  | [] => .error "empty key"
  | h :: rest =>
    match parseUsize h with
    | none => .error ("invalid key " ++ h)
    | some index =>
      match a[index]? with
      | none => .error ("missing value for key " ++ natToString index)
      | some val =>
        match rest with
        | r1 :: rs => valueGetNode val (r1 :: rs)
        | [] => .ok val
termination_by (k.length, 0)

/-- Embedding of the traversal part of `Table::get` (`src/value/table.rs`). -/
def tableGetNode (t : List (String × Value)) (k : List String) : Except String Value :=
  match k with
  | [] => .error "empty key"
  | h :: rest =>
    match alistLookup h t with
    | none => .error ("missing value for key " ++ h)
    | some val =>
      match rest with
      | r1 :: rs => valueGetNode val (r1 :: rs)
      | [] => .ok val
termination_by (k.length, 0)

end

/-- Embedding of Rust `str::split('.')` over the character list: splitting
on the dot character, yielding one (possibly empty) segment more than the
number of dots. -/
def splitOnDot : List Char → List (List Char)
  | [] => [[]]
  | c :: rest =>
    if c = '.' then [] :: splitOnDot rest
    else
      match splitOnDot rest with
      | [] => [[c]]
      | seg :: segs => (c :: seg) :: segs

/-- Embedding of `Key::from<&str>` (`src/value/key.rs`): the dotted address
split into its segments. -/
def keyOfString (s : String) : List String :=
  (splitOnDot s.data).map fun l => ⟨l⟩

/-- Embedding of `Key::from<usize>` (`src/value/key.rs`): a single segment
holding the decimal text of the integer. -/
def keyOfNat (n : Nat) : List String :=
  [natToString n]

/-- The supported machine integer widths. -/
inductive IntTy where
  | i8 | i16 | i32 | i64 | i128 | u8 | u16 | u32 | u64 | u128
deriving DecidableEq

/-- Whether the width is signed. -/
def IntTy.signed : IntTy → Bool
  | .i8 | .i16 | .i32 | .i64 | .i128 => true
  | _ => false

/-- Bit width of the integer type. -/
def IntTy.bits : IntTy → Nat
  | .i8 | .u8 => 8
  | .i16 | .u16 => 16
  | .i32 | .u32 => 32
  | .i64 | .u64 => 64
  | .i128 | .u128 => 128

/-- Least representable value of the width. -/
def IntTy.minVal (t : IntTy) : Int :=
  if t.signed then -(2 ^ (t.bits - 1)) else 0

/-- Greatest representable value of the width. -/
def IntTy.maxVal (t : IntTy) : Int :=
  if t.signed then 2 ^ (t.bits - 1) - 1 else 2 ^ t.bits - 1

/-- Decimal character rendering of an integer, embedding Rust
`i64::to_string` and friends: a minus sign for negative values, plain
digits otherwise. -/
def intToChars (v : Int) : List Char :=
  if v < 0 then '-' :: natChars v.natAbs else natChars v.natAbs

/-- String form of `intToChars`. -/
def intToString (v : Int) : String :=
  ⟨intToChars v⟩

/-- A supported scalar value: a boolean, an integer of one of the ten
widths, a character, or a string.  (The two float widths of the source are
outside the shallow embedding.) -/
inductive Scalar where
  | b : Bool → Scalar
  | int : IntTy → Int → Scalar
  | c : Char → Scalar
  | s : String → Scalar

/-- The scalar type tags matching the typed deserializer entry points of
`src/value/de.rs`. -/
inductive ScalarTy where
  | bool : ScalarTy
  | int : IntTy → ScalarTy
  | char : ScalarTy
  | str : ScalarTy

/-- Type tag of a scalar value. -/
def Scalar.ty : Scalar → ScalarTy
  | .b _ => .bool
  | .int t _ => .int t
  | .c _ => .char
  | .s _ => .str

/-- Whether an integer scalar lies in the range of its declared width
(non-integer scalars always do). -/
def Scalar.inRangeB : Scalar → Bool
  | .int t v => decide (t.minVal ≤ v ∧ v ≤ t.maxVal)
  | _ => true

/-- Modelled from the spec: the canonical text an `Entry` stores for a
scalar (spec section 4.2, "default textual rendering"); `entry.rs` and
`ser.rs` are not under `src`.  Booleans render as `true`/`false`, integers
in decimal, a character as itself, a string as itself — the renderings of
the Rust `Display` implementations. -/
def Scalar.canonicalText : Scalar → String
  | .b true => "true"
  | .b false => "false"
  | .int _ v => intToString v
  | .c ch => ⟨[ch]⟩
  | .s str => str

/-- Embedding of Rust `str::parse::<bool>`: exactly the texts `true` and
`false` are accepted. -/
def parseBool (s : String) : Option Bool :=
  if s = "true" then some true else if s = "false" then some false else none

/-- Embedding of Rust `str::parse::<char>`: succeeds exactly on
single-character strings. -/
def parseChar (s : String) : Option Char :=
  match s.data with
  | [ch] => some ch
  | _ => none

/-- Parse an unsigned digit string and check the given inclusive bounds. -/
def parseIntNonneg (lo hi : Int) (cs : List Char) : Option Int :=
  match parseDigits cs with
  | some n => if lo ≤ (n : Int) ∧ (n : Int) ≤ hi then some (n : Int) else none
  | none => none

/-- Embedding of Rust signed-integer parsing (`str::parse::<i8>` etc.):
an optional sign followed by digits, bounds-checked. -/
def parseIntSigned (lo hi : Int) (cs : List Char) : Option Int :=
  match cs with
  | [] => none
  | c :: rest =>
    if c = '-' then
      match parseDigits rest with
      | some n => if lo ≤ -(n : Int) ∧ -(n : Int) ≤ hi then some (-(n : Int)) else none
      | none => none
    else if c = '+' then parseIntNonneg lo hi rest
    else parseIntNonneg lo hi (c :: rest)

/-- Embedding of Rust unsigned-integer parsing (`str::parse::<u8>` etc.):
an optional plus sign followed by digits, bounds-checked; a minus sign is
rejected (as a non-digit). -/
def parseIntUnsigned (hi : Int) (cs : List Char) : Option Int :=
  match cs with
  | [] => none
  | c :: rest =>
    if c = '+' then parseIntNonneg 0 hi rest
    else parseIntNonneg 0 hi (c :: rest)

/-- Parse entry text as an integer of the requested width, embedding the
`entry.0.parse::<iN>()` / `::<uN>()` calls of `src/value/de.rs`. -/
def parseIntTy (t : IntTy) (s : String) : Option Int :=
  if t.signed then parseIntSigned t.minVal t.maxVal s.data
  else parseIntUnsigned t.maxVal s.data

/-- Embedding of `deserialize_string` in `src/value/de.rs`: an `Entry`
yields its text, `Array`/`Table` are errors. -/
def decodeString : Value → Except String String
  | .entry e => .ok e
  | .array _ => .error "cannot deserialize array variant as string"
  | .table _ => .error "cannot deserialize table variant as string"

/-- Embedding of `deserialize_bool` in `src/value/de.rs`. -/
def decodeBool : Value → Except String Bool
  | .entry e =>
    match parseBool e with
    | some bv => .ok bv
    | none => .error "provided string was not true or false"
  | .array _ => .error "cannot deserialize array variant as bool"
  | .table _ => .error "cannot deserialize table variant as bool"

/-- Embedding of `deserialize_char` in `src/value/de.rs`. -/
def decodeChar : Value → Except String Char
  | .entry e =>
    match parseChar e with
    | some cv => .ok cv
    | none => .error "too many characters in string"
  | .array _ => .error "cannot deserialize array variant as char"
  | .table _ => .error "cannot deserialize table variant as char"

/-- Embedding of the `deserialize_i8` .. `deserialize_u128` family in
`src/value/de.rs`: the entry text is parsed with the width's parser. -/
def decodeInt (t : IntTy) : Value → Except String Int
  | .entry e =>
    match parseIntTy t e with
    | some v => .ok v
    | none => .error "invalid digit found in string"
  | .array _ => .error "cannot deserialize array variant as integer"
  | .table _ => .error "cannot deserialize table variant as integer"

/-- Typed scalar decoding: dispatch to the deserializer entry point the
requested scalar type selects (as serde does for `get::<T>`). -/
def decodeAs : ScalarTy → Value → Except String Scalar
  | .bool, v => (decodeBool v).map .b
  | .int t, v => (decodeInt t v).map (.int t)
  | .char, v => (decodeChar v).map .c
  | .str, v => (decodeString v).map .s

/-- Embedding of the variant-selection step of `deserialize_enum` in
`src/value/de.rs`: an `Entry` yields a content-less variant named by its
text; a `Table` must hold exactly one pair, whose key names the variant
and whose value is the payload; anything else errors. -/
def enumVariant : Value → Except String (String × Option Value)
  | .entry e => .ok (e, none)
  | .table [] => .error "invalid value map expected map with a single key"
  | .table [(k, pv)] => .ok (k, some pv)
  | .table (_ :: _ :: _) => .error "invalid value map expected map with a single key"
  | .array _ => .error "invalid type seq expected string or map"

/-- Modelled from the spec: the serde data-model shapes the Encoder of
section 4.2 consumes; `ser.rs` (the `ValueSerializer`) is not under
`src`. -/
inductive SerInput where
  | scalar : Scalar → SerInput
  | unit : SerInput
  | seq : List SerInput → SerInput
  | map : List (String × SerInput) → SerInput
  | unitVariant : String → SerInput
  | newtypeVariant : String → SerInput → SerInput
  | tupleVariant : String → List SerInput → SerInput
  | structVariant : String → List (String × SerInput) → SerInput

mutual

/-- Modelled from the spec (section 4.2): the Encoder turns scalars into
entries holding their canonical text, rejects unit values, encodes
sequences as arrays, maps as tables, and enum variants structurally;
`ser.rs` is not under `src`. -/
def encode : SerInput → Except String Value
  | .scalar sc => .ok (.entry sc.canonicalText)
  | .unit => .error "unsupported value"
  | .seq xs => (encodeList xs).map .array
  | .map kvs => (encodeFields kvs).map .table
  | .unitVariant n => .ok (.entry n)
  | .newtypeVariant n p => (encode p).map fun pv => .table [(n, pv)]
  | .tupleVariant n ps => (encodeList ps).map fun pvs => .table [(n, .array pvs)]
  | .structVariant n fs => (encodeFields fs).map fun fvs => .table [(n, .table fvs)]

/-- Modelled from the spec: elementwise encoding of a sequence. -/
def encodeList : List SerInput → Except String (List Value)
  | [] => .ok []
  | x :: xs =>
    match encode x with
    | .ok v => (encodeList xs).map fun vs => v :: vs
    | .error e => .error e

/-- Modelled from the spec: fieldwise encoding of a map or struct. -/
def encodeFields : List (String × SerInput) → Except String (List (String × Value))
  | [] => .ok []
  | (n, x) :: xs =>
    match encode x with
    | .ok v => (encodeFields xs).map fun vs => (n, v) :: vs
    | .error e => .error e

end

/-- The configuration root: `Config` wraps a `Table`
(`src/config.rs`). -/
abbrev Config := List (String × Value)

/-- Embedding of `Config::set` (`src/config.rs`): encode the input, then
run `Table::set` on the root with the parsed key. -/
def configSet (t : Config) (p : String) (inp : SerInput) : SetResult × Config :=
  tableSet t (keyOfString p) (encode inp)

/-- `Config::set` with a pre-encoded value (the encoding result is passed
through unchanged). -/
def configSetV (t : Config) (p : String) (x : Except String Value) : SetResult × Config :=
  tableSet t (keyOfString p) x

/-- Embedding of the traversal part of `Config::get` (`src/config.rs`):
locate the node addressed by the dotted path. -/
def configGetNode (t : Config) (p : String) : Except String Value :=
  tableGetNode t (keyOfString p)

/-- `Config::get::<String>`: locate, then decode as a string. -/
def configGetString (t : Config) (p : String) : Except String String :=
  (configGetNode t p).bind decodeString

/-- `Config::get::<T>` for a scalar type `T`: locate, then decode at the
requested type. -/
def configGetAs (ty : ScalarTy) (t : Config) (p : String) : Except String Scalar :=
  (configGetNode t p).bind (decodeAs ty)

/-- Join character-list segments with dots (left inverse of
`splitOnDot`). -/
def charJoin : List (List Char) → List Char
  | [] => []
  | [x] => x
  | x :: y :: rest => x ++ '.' :: charJoin (y :: rest)

/-- Join string segments with dots. -/
def stringJoinDots (segs : List String) : String :=
  ⟨charJoin (segs.map String.data)⟩

theorem digitVal_digitChar {d : Nat} (hd : d < 10) :
    digitVal (Nat.digitChar d) = some d := by
  interval_cases d <;> rfl

theorem parseDigitsAux_append (acc : Nat) (xs ys : List Char) :
    parseDigitsAux acc (xs ++ ys)
      = match parseDigitsAux acc xs with
        | some m => parseDigitsAux m ys
        | none => none := by
  induction xs generalizing acc with
  | nil => rfl
  | cons c cs ih =>
    simp only [List.cons_append, parseDigitsAux]
    cases hc : digitVal c with
    | some d => exact ih _
    | none => rfl

theorem parseDigitsAux_msd (ds : List Nat) (hds : ∀ d ∈ ds, d < 10) (acc : Nat) :
    parseDigitsAux acc ((ds.map Nat.digitChar).reverse)
      = some (acc * 10 ^ ds.length + Nat.ofDigits 10 ds) := by
  induction ds generalizing acc with
  | nil => simp [parseDigitsAux, Nat.ofDigits]
  | cons d ds ih =>
    have hd : d < 10 := hds d (List.mem_cons_self d ds)
    have hds' : ∀ x ∈ ds, x < 10 := fun x hx => hds x (List.mem_cons_of_mem d hx)
    rw [List.map_cons, List.reverse_cons, parseDigitsAux_append, ih hds' acc]
    simp only [parseDigitsAux, digitVal_digitChar hd, Nat.ofDigits_cons, List.length_cons]
    congr 1
    ring

theorem parseDigits_natChars (n : Nat) : parseDigits (natChars n) = some n := by
  by_cases h : n = 0
  · subst h; rfl
  · have hne : Nat.digits 10 n ≠ [] := Nat.digits_ne_nil_iff_ne_zero.mpr h
    have hlt : ∀ d ∈ Nat.digits 10 n, d < 10 := fun d hd =>
      Nat.digits_lt_base (by norm_num) hd
    have hch : natChars n = ((Nat.digits 10 n).map Nat.digitChar).reverse := by
      simp [natChars, h]
    have hne2 : natChars n ≠ [] := by
      rw [hch]; simpa using hne
    obtain ⟨c, cs, hcs⟩ := List.exists_cons_of_ne_nil hne2
    rw [hcs, show parseDigits (c :: cs) = parseDigitsAux 0 (c :: cs) from rfl, ← hcs, hch,
      parseDigitsAux_msd _ hlt 0]
    simp [Nat.ofDigits_digits]

theorem natChars_ne_nil (n : Nat) : natChars n ≠ [] := by
  intro hc
  have := parseDigits_natChars n
  rw [hc] at this
  simp [parseDigits] at this

theorem natChars_digit {n : Nat} {c : Char} (hc : c ∈ natChars n) :
    (digitVal c).isSome := by
  by_cases h : n = 0
  · subst h
    rw [show natChars 0 = ['0'] from rfl, List.mem_singleton] at hc
    subst hc; rfl
  · simp only [natChars, if_neg h, List.mem_reverse, List.mem_map] at hc
    obtain ⟨d, hd, rfl⟩ := hc
    rw [digitVal_digitChar (Nat.digits_lt_base (by norm_num) hd)]
    rfl

theorem digit_ne_sign {c : Char} (h : (digitVal c).isSome) : c ≠ '-' ∧ c ≠ '+' := by
  constructor <;> rintro rfl <;> exact absurd h (by decide)

theorem natToString_inj {m n : Nat} (h : natToString m = natToString n) : m = n := by
  have hdata : natChars m = natChars n := congrArg String.data h
  have hm := parseDigits_natChars m
  rw [hdata, parseDigits_natChars n] at hm
  exact (Option.some.inj hm).symm

theorem parseIntNonneg_natChars (lo hi : Int) (n : Nat) (h1 : lo ≤ (n : Int))
    (h2 : (n : Int) ≤ hi) : parseIntNonneg lo hi (natChars n) = some (n : Int) := by
  simp [parseIntNonneg, parseDigits_natChars, h1, h2]

theorem parseIntSigned_natChars (lo hi : Int) (n : Nat) (h1 : lo ≤ (n : Int))
    (h2 : (n : Int) ≤ hi) : parseIntSigned lo hi (natChars n) = some (n : Int) := by
  obtain ⟨c, rest, hcr⟩ := List.exists_cons_of_ne_nil (natChars_ne_nil n)
  have hd : (digitVal c).isSome := natChars_digit (hcr ▸ List.mem_cons_self c rest)
  obtain ⟨hm, hp⟩ := digit_ne_sign hd
  rw [hcr]
  simp only [parseIntSigned, if_neg hm, if_neg hp]
  rw [← hcr]
  exact parseIntNonneg_natChars lo hi n h1 h2

theorem parseIntUnsigned_natChars (hi : Int) (n : Nat) (h2 : (n : Int) ≤ hi) :
    parseIntUnsigned hi (natChars n) = some (n : Int) := by
  obtain ⟨c, rest, hcr⟩ := List.exists_cons_of_ne_nil (natChars_ne_nil n)
  have hd : (digitVal c).isSome := natChars_digit (hcr ▸ List.mem_cons_self c rest)
  obtain ⟨hm, hp⟩ := digit_ne_sign hd
  rw [hcr]
  simp only [parseIntUnsigned, if_neg hp]
  rw [← hcr]
  exact parseIntNonneg_natChars 0 hi n (by positivity) h2

theorem parseIntTy_roundtrip (t : IntTy) (v : Int) (h1 : t.minVal ≤ v)
    (h2 : v ≤ t.maxVal) : parseIntTy t (intToString v) = some v := by
  have hdata : (intToString v).data = intToChars v := rfl
  unfold parseIntTy
  rw [hdata]
  by_cases hv : v < 0
  · have hsig : t.signed = true := by
      by_contra hns
      have h0 : t.minVal = 0 := by simp [IntTy.minVal, hns]
      omega
    rw [if_pos hsig]
    unfold intToChars
    rw [if_pos hv]
    have habs : ((v.natAbs : Int)) = -v := by omega
    simp only [parseIntSigned, if_pos rfl, parseDigits_natChars, habs, neg_neg]
    simp [h1, h2]
  · have habs : ((v.natAbs : Int)) = v := by omega
    unfold intToChars
    rw [if_neg hv]
    cases hsig : t.signed with
    | true =>
      rw [parseIntSigned_natChars _ _ _ (by omega) (by omega), habs]
      simp
    | false =>
      rw [parseIntUnsigned_natChars _ _ (by omega), habs]
      simp

theorem splitOnDot_ne_nil (cs : List Char) : splitOnDot cs ≠ [] := by
  cases cs with
  | nil => simp [splitOnDot]
  | cons c rest =>
    simp only [splitOnDot]
    by_cases hc : c = '.'
    · simp [hc]
    · rw [if_neg hc]
      cases splitOnDot rest <;> simp

theorem splitOnDot_no_dot {cs : List Char} (h : '.' ∉ cs) : splitOnDot cs = [cs] := by
  induction cs with
  | nil => rfl
  | cons c rest ih =>
    have hc : c ≠ '.' := fun hc => h (hc ▸ List.mem_cons_self c rest)
    have hrest : '.' ∉ rest := fun hr => h (List.mem_cons_of_mem c hr)
    simp only [splitOnDot, if_neg hc, ih hrest]

theorem keyOfString_single {p : String} (hp : '.' ∉ p.data) : keyOfString p = [p] := by
  simp only [keyOfString, splitOnDot_no_dot hp, List.map_cons, List.map_nil]

theorem keyOfString_ne_nil (s : String) : keyOfString s ≠ [] := by
  simp only [keyOfString, ne_eq, List.map_eq_nil_iff]
  exact splitOnDot_ne_nil s.data

theorem charJoin_splitOnDot (cs : List Char) : charJoin (splitOnDot cs) = cs := by
  induction cs with
  | nil => rfl
  | cons c rest ih =>
    by_cases hc : c = '.'
    · subst hc
      simp only [splitOnDot, if_pos rfl]
      cases hsp : splitOnDot rest with
      | nil => exact absurd hsp (splitOnDot_ne_nil rest)
      | cons s ss =>
        rw [hsp] at ih
        simp [charJoin, ih]
    · simp only [splitOnDot, if_neg hc]
      cases hsp : splitOnDot rest with
      | nil => exact absurd hsp (splitOnDot_ne_nil rest)
      | cons s ss =>
        rw [hsp] at ih
        cases ss with
        | nil => simp only [charJoin] at ih ⊢; rw [ih]
        | cons s2 ss2 =>
          simp only [charJoin, List.cons_append] at ih ⊢
          rw [ih]

theorem alistLookup_insert_self (k : String) (v : Value) (t : List (String × Value)) :
    alistLookup k (alistInsert k v t) = some v := by
  induction t with
  | nil => simp [alistInsert, alistLookup]
  | cons p rest ih =>
    obtain ⟨k', v'⟩ := p
    by_cases hk : k' = k
    · simp [alistInsert, alistLookup, hk]
    · simp [alistInsert, alistLookup, hk, ih]

theorem alistLookup_insert_ne {k k' : String} (h : k' ≠ k) (v : Value)
    (t : List (String × Value)) :
    alistLookup k (alistInsert k' v t) = alistLookup k t := by
  induction t with
  | nil => simp [alistInsert, alistLookup, h]
  | cons p rest ih =>
    obtain ⟨k'', v''⟩ := p
    by_cases hk : k'' = k'
    · subst hk
      simp [alistInsert, alistLookup, h]
    · by_cases hk2 : k'' = k
      · simp [alistInsert, alistLookup, hk, hk2, Ne.symm h]
      · simp [alistInsert, alistLookup, hk, hk2, ih]

theorem rekeyFrom_lookup_out {key : String} (a : List Value) (i : Nat)
    (t : List (String × Value)) (h : ∀ j, j < a.length → key ≠ natToString (i + j)) :
    alistLookup key (rekeyFrom i a t) = alistLookup key t := by
  induction a generalizing i t with
  | nil => rfl
  | cons v vs ih =>
    simp only [rekeyFrom]
    rw [ih (i + 1) _ (fun j hj => by
      have := h (j + 1) (by simpa using Nat.succ_lt_succ hj)
      simpa [Nat.add_assoc, Nat.add_comm 1 j] using this)]
    exact alistLookup_insert_ne (fun he => h 0 (by simp) (by simpa using he.symm)) v t

theorem rekeyFrom_lookup (a : List Value) (i j : Nat) (t : List (String × Value))
    (hj : j < a.length) :
    alistLookup (natToString (i + j)) (rekeyFrom i a t) = some (a.getD j (.entry "")) := by
  induction a generalizing i j t with
  | nil => simp at hj
  | cons v vs ih =>
    cases j with
    | zero =>
      simp only [rekeyFrom, Nat.add_zero, List.getD_cons_zero]
      rw [rekeyFrom_lookup_out vs (i + 1) _ (fun j hj heq => by
        have := natToString_inj heq
        omega)]
      exact alistLookup_insert_self _ v t
    | succ j' =>
      have harg : i + (j' + 1) = (i + 1) + j' := by omega
      rw [harg]
      simp only [rekeyFrom, List.getD_cons_succ]
      exact ih (i + 1) j' _ (by simpa using hj)

theorem listInsertAt_length (v : Value) (a : List Value) :
    listInsertAt a.length v a = a ++ [v] := by
  induction a with
  | nil => rfl
  | cons x xs ih => simp [listInsertAt, ih]

theorem vecInsert_length (a : List Value) (v : Value) :
    vecInsert a a.length v = (.ok, a ++ [v]) := by
  simp [vecInsert, listInsertAt_length]

theorem vecInsert_zero_nil (v : Value) : vecInsert [] 0 v = (.ok, [v]) := by
  simp [vecInsert, listInsertAt]

theorem set_no_panic_aux :
    ∀ n (k : List String), k.length ≤ n →
      (∀ t x, ((tableSet t k x).1).isPanicB = false) ∧
      (∀ a x, ((arraySet a k x).1).isPanicB = false) ∧
      (∀ v x, ((valueSet v k x).1).isPanicB = false) := by
  intro n
  induction n with
  | zero =>
    intro k hk
    have hnil : k = [] := List.length_eq_zero.mp (Nat.le_zero.mp hk)
    subst hnil
    refine ⟨fun t x => ?_, fun a x => ?_, fun v x => ?_⟩ <;>
      simp [tableSet, arraySet, valueSet, SetResult.isPanicB]
  | succ n ih =>
    intro k hk
    cases k with
    | nil =>
      refine ⟨fun t x => ?_, fun a x => ?_, fun v x => ?_⟩ <;>
        simp [tableSet, arraySet, valueSet, SetResult.isPanicB]
    | cons h rest =>
      have hrest : rest.length ≤ n := by simpa using hk
      have ihv := (ih rest hrest).2.2
      have htab : ∀ t x, ((tableSet t (h :: rest) x).1).isPanicB = false := by
        intro t x
        cases rest with
        | nil => cases x <;> simp [tableSet, SetResult.isPanicB]
        | cons r1 rs =>
          have hvp := ihv ((alistLookup h t).getD (.entry "")) x
          cases hval : valueSet ((alistLookup h t).getD (.entry "")) (r1 :: rs) x with
          | mk r item' =>
            rw [hval] at hvp
            simp [tableSet, hval, hvp]
      have harr : ∀ a x, ((arraySet a (h :: rest) x).1).isPanicB = false := by
        intro a x
        cases hp : parseUsize h with
        | none => simp [arraySet, hp, SetResult.isPanicB]
        | some index =>
          cases hidx : a[index]? with
          | some item =>
            cases rest with
            | nil => cases x <;> simp [arraySet, hp, hidx, SetResult.isPanicB]
            | cons r1 rs =>
              have hvp := ihv item x
              cases hval : valueSet item (r1 :: rs) x with
              | mk r item' =>
                rw [hval] at hvp
                simp [arraySet, hp, hidx, hval, hvp]
          | none =>
            have hlen : a.length ≤ index := List.getElem?_eq_none_iff.mp hidx
            by_cases h0 : index = 0
            · subst h0
              have hanil : a = [] := List.length_eq_zero.mp (Nat.le_zero.mp hlen)
              subst hanil
              cases rest with
              | nil =>
                cases x <;>
                  simp [arraySet, hp, vecInsert, listInsertAt, SetResult.isPanicB]
              | cons r1 rs =>
                have hvp := ihv (.entry "") x
                cases hval : valueSet (.entry "") (r1 :: rs) x with
                | mk r v' =>
                  rw [hval] at hvp
                  cases r with
                  | ok =>
                    simp [arraySet, hp, hval, vecInsert, listInsertAt, SetResult.isPanicB]
                  | err e =>
                    simp [arraySet, hp, hval, SetResult.isPanicB]
                  | panic m => simp [SetResult.isPanicB] at hvp
            · cases hprev : a[index - 1]? with
              | none => simp [arraySet, hp, hidx, h0, hprev, SetResult.isPanicB]
              | some prev =>
                have hplen : index - 1 < a.length := (List.getElem?_eq_some.mp hprev).1
                have hile : index ≤ a.length := by omega
                cases rest with
                | nil =>
                  cases x <;>
                    simp [arraySet, hp, hidx, h0, hprev, vecInsert, hile, SetResult.isPanicB]
                | cons r1 rs =>
                  have hvp := ihv (.entry "") x
                  cases hval : valueSet (.entry "") (r1 :: rs) x with
                  | mk r v' =>
                    rw [hval] at hvp
                    cases r with
                    | ok =>
                      simp [arraySet, hp, hidx, h0, hprev, hval, vecInsert, hile,
                        SetResult.isPanicB]
                    | err e =>
                      simp [arraySet, hp, hidx, h0, hprev, hval, SetResult.isPanicB]
                    | panic m => simp [SetResult.isPanicB] at hvp
      have hvalue : ∀ v x, ((valueSet v (h :: rest) x).1).isPanicB = false := by
        intro v x
        cases v with
        | entry e =>
          cases hp : parseUsize h with
          | some i =>
            have hap := harr [] x
            cases har : arraySet [] (h :: rest) x with
            | mk r a' =>
              rw [har] at hap
              cases r with
              | ok => simp [valueSet, hp, har, SetResult.isPanicB]
              | err e2 => simp [valueSet, hp, har, SetResult.isPanicB]
              | panic m => simp [SetResult.isPanicB] at hap
          | none =>
            have htp := htab [] x
            cases htr : tableSet [] (h :: rest) x with
            | mk r t' =>
              rw [htr] at htp
              cases r with
              | ok => simp [valueSet, hp, htr, SetResult.isPanicB]
              | err e2 => simp [valueSet, hp, htr, SetResult.isPanicB]
              | panic m => simp [SetResult.isPanicB] at htp
        | array a =>
          cases hp : parseUsize h with
          | some i =>
            have hap := harr a x
            cases har : arraySet a (h :: rest) x with
            | mk r a' =>
              rw [har] at hap
              simp [valueSet, hp, har, hap]
          | none =>
            have htp := htab (rekeyFrom 0 a []) x
            cases htr : tableSet (rekeyFrom 0 a []) (h :: rest) x with
            | mk r t' =>
              rw [htr] at htp
              cases r with
              | ok => simp [valueSet, hp, htr, SetResult.isPanicB]
              | err e2 => simp [valueSet, hp, htr, SetResult.isPanicB]
              | panic m => simp [SetResult.isPanicB] at htp
        | table t =>
          have htp := htab t x
          cases htr : tableSet t (h :: rest) x with
          | mk r t' =>
            rw [htr] at htp
            simp [valueSet, htr, htp]
      exact ⟨htab, harr, hvalue⟩

/-- C3 counterexample: setting a unit value (whose encoding fails) at a
fresh key of an empty root returns an error, yet the tree is changed: a
default empty entry has been inserted under the key.  The claim that a
failed encoding leaves the tree unchanged is therefore false. -/
theorem c3_counterexample :
    configSet [] "a" .unit = (.err "unsupported value", [("a", .entry "")]) ∧
    ([("a", Value.entry "")] : Config) ≠ ([] : Config) := by
  constructor
  · have hk : keyOfString "a" = ["a"] := rfl
    simp [configSet, encode, hk, tableSet, alistLookup, alistInsert]
  · simp

/-- C3 (amended): the encoding result is consumed exactly once, at the
terminal write of `Table::set`; a successful encoding is installed under
the key, while a failed encoding returns its error after the
fetch-or-create of the key has already inserted a default empty entry
(the tree is not left unchanged). -/
theorem c3_terminal_encode (t : Config) (h e : String) (xv : Value) :
    tableSet t [h] (.ok xv) = (.ok, alistInsert h xv t) ∧
    tableSet t [h] (.error e)
      = (.err e, alistInsert h ((alistLookup h t).getD (.entry "")) t) := by
  constructor <;> simp [tableSet]

/-- C6: enum decoding reads an `Entry` as a content-less variant named by
its text; a `Table` decodes only when it has exactly one pair (key names
the variant, value is the payload); a table with zero or at least two
pairs is a decode error. -/
theorem c6_enum_decoding :
    (∀ e, enumVariant (.entry e) = .ok (e, none)) ∧
    (∀ k pv, enumVariant (.table [(k, pv)]) = .ok (k, some pv)) ∧
    (∀ t : List (String × Value), t.length ≠ 1 →
      enumVariant (.table t)
        = .error "invalid value map expected map with a single key") := by
  refine ⟨fun e => rfl, fun k pv => rfl, ?_⟩
  intro t ht
  match t with
  | [] => rfl
  | [(k, v)] => simp at ht
  | a :: b :: rest => rfl

/-- C6 witness: the empty table and a two-entry table fail to decode as an
enum, the singleton succeeds. -/
theorem c6_enum_decoding_witness :
    ([] : List (String × Value)).length ≠ 1 ∧
    enumVariant (.table [])
      = .error "invalid value map expected map with a single key" ∧
    enumVariant (.table [("a", .entry "1"), ("b", .entry "2")])
      = .error "invalid value map expected map with a single key" :=
  ⟨by decide, c6_enum_decoding.2.2 [] (by decide),
    c6_enum_decoding.2.2 [("a", .entry "1"), ("b", .entry "2")] (by decide)⟩

/-- C7 counterexample: the empty address splits into a single empty
segment, so not every path segment is non-empty. -/
theorem c7_counterexample :
    ¬ (∀ (s : String), ∀ seg ∈ keyOfString s, seg ≠ "") := by
  intro hall
  exact hall "" "" (by rw [show keyOfString "" = [""] from rfl]; simp) rfl

/-- C7 (amended): path parsing is splitting on the dot character — joining
the segments with dots restores the input, the path is never the empty
sequence (segments themselves may be empty) — and a path built from an
integer is the single segment holding its decimal text. -/
theorem c7_path_split (s : String) (n : Nat) :
    stringJoinDots (keyOfString s) = s ∧ keyOfString s ≠ [] ∧
    keyOfNat n = [natToString n] := by
  refine ⟨?_, keyOfString_ne_nil s, rfl⟩
  simp only [stringJoinDots, keyOfString, List.map_map]
  have hmap : (splitOnDot s.data).map (String.data ∘ fun l => (⟨l⟩ : String))
      = splitOnDot s.data := by
    simp [Function.comp_def]
  rw [hmap, charJoin_splitOnDot]

/-- C8: `Value::get` on an `Entry` node always returns an error, for every
key (even a single segment); `Value::set` on the same node can succeed by
promoting it. -/
theorem c8_entry_get_error :
    (∀ e k, valueGetNode (.entry e) k = .error "call get on entry variant") ∧
    valueSet (.entry "v") ["k"] (.ok (.entry "w"))
      = (.ok, .table [("k", .entry "w")]) := by
  constructor
  · intro e k
    simp [valueGetNode]
  · simp [valueSet, tableSet, parseUsize, parseDigits, parseDigitsAux, digitVal, alistInsert]

/-- C9: the empty address is one empty segment, not an empty path; setting
at the empty address stores under the table key `""` and reading it back
succeeds; the empty-path error arises only from a zero-segment key, which
no string input produces. -/
theorem c9_empty_address (xv : Value) :
    keyOfString "" = [""] ∧
    (∀ s : String, keyOfString s ≠ []) ∧
    (∀ t x, tableSet t [] x = (.err "empty key", t)) ∧
    (∀ t : Config, configSetV t "" (.ok xv) = (.ok, alistInsert "" xv t) ∧
      configGetNode (alistInsert "" xv t) "" = .ok xv) := by
  refine ⟨rfl, keyOfString_ne_nil, ?_, ?_⟩
  · intro t x
    simp [tableSet]
  · intro t
    have hk : keyOfString "" = [""] := rfl
    constructor
    · simp [configSetV, hk, tableSet]
    · simp [configGetNode, hk, tableGetNode, alistLookup_insert_self]

/-- C10: `Array::set` is panic-free for every array state, key and encoded
value: the modelled `Vec::insert` panic outcome is unreachable (every
insertion position is at most the current length, and the
index-minus-one lookup is reached only with a positive index), so every
call returns an ordinary ok or error outcome. -/
theorem c10_array_set_no_panic (a : List Value) (k : List String)
    (x : Except String Value) : ((arraySet a k x).1).isPanicB = false :=
  (set_no_panic_aux k.length k le_rfl).2.1 a x

/-- C2 counterexample: a terminal write at index 0 of a two-element array
overwrites in place — the result keeps length two, rather than the
three-element insert-with-shift result the claim predicts. -/
theorem c2_counterexample :
    arraySet [.entry "a", .entry "b"] ["0"] (.ok (.entry "c"))
      = (.ok, [.entry "c", .entry "b"]) ∧
    (arraySet [.entry "a", .entry "b"] ["0"] (.ok (.entry "c"))).2
      ≠ [.entry "c", .entry "a", .entry "b"] := by
  have h1 : arraySet [.entry "a", .entry "b"] ["0"] (.ok (.entry "c"))
      = (.ok, [.entry "c", .entry "b"]) := by
    simp [arraySet, parseUsize, parseDigits, parseDigitsAux, digitVal]
  refine ⟨h1, ?_⟩
  rw [h1]
  intro hcontra
  have := congrArg List.length hcontra
  simp at this

set_option maxRecDepth 8192 in
/-- C2 (amended): for an index strictly below the current length a
terminal write overwrites the element in place (the length is unchanged,
no shift happens), and a write with further path segments recurses into
the existing element at that index. -/
theorem c2_array_index_write (a : List Value) (h : String) (i : Nat)
    (xv item : Value) (x : Except String Value) (r1 : String) (rs : List String)
    (hp : parseUsize h = some i) (hidx : a[i]? = some item) :
    arraySet a [h] (.ok xv) = (.ok, a.set i xv) ∧
    (a.set i xv).length = a.length ∧
    arraySet a (h :: r1 :: rs) x
      = ((valueSet item (r1 :: rs) x).1, a.set i (valueSet item (r1 :: rs) x).2) := by
  refine ⟨?_, by simp, ?_⟩
  · simp [arraySet, hp, hidx]
  · cases hval : valueSet item (r1 :: rs) x with
    | mk r item' => simp [arraySet, hp, hidx, hval]

/-- C2 witness: overwriting index 1 of a two-element array in place, and
recursing into index 1 when further segments remain. -/
theorem c2_array_index_write_witness :
    parseUsize "1" = some 1 ∧
    [Value.entry "a", Value.entry "b"][1]? = some (Value.entry "b") ∧
    (arraySet [Value.entry "a", Value.entry "b"] ["1"] (.ok (.entry "z"))
        = (.ok, [Value.entry "a", Value.entry "b"].set 1 (.entry "z")) ∧
      ([Value.entry "a", Value.entry "b"].set 1 (Value.entry "z")).length
        = [Value.entry "a", Value.entry "b"].length ∧
      arraySet [Value.entry "a", Value.entry "b"] ["1", "t"] (.ok (.entry "q"))
        = ((valueSet (.entry "b") ["t"] (.ok (.entry "q"))).1,
           [Value.entry "a", Value.entry "b"].set 1
             (valueSet (.entry "b") ["t"] (.ok (.entry "q"))).2)) :=
  ⟨by decide, by rfl,
    c2_array_index_write [Value.entry "a", Value.entry "b"] "1" 1 (.entry "z")
      (.entry "b") (.ok (.entry "q")) "t" [] (by decide) (by rfl)⟩

/-- C4: promotion policy — an `Entry` with an integer next segment is
replaced by an empty `Array` the same call recurses into (kept on
success), with a non-integer segment by an empty `Table`; an `Array`
addressed by a non-integer segment is first re-keyed into a `Table` under
the stringified indices, where every original element remains readable,
and the write proceeds on that table. -/
theorem c4_promotion (e h : String) (rest : List String) (x : Except String Value)
    (a : List Value) (i : Nat) :
    (parseUsize h = some i →
      valueSet (.entry e) (h :: rest) x
        = match arraySet [] (h :: rest) x with
          | (.ok, a') => (.ok, .array a')
          | (r, _) => (r, .entry e)) ∧
    (parseUsize h = none →
      valueSet (.entry e) (h :: rest) x
        = match tableSet [] (h :: rest) x with
          | (.ok, t') => (.ok, .table t')
          | (r, _) => (r, .entry e)) ∧
    (parseUsize h = none →
      valueSet (.array a) (h :: rest) x
        = match tableSet (rekeyFrom 0 a []) (h :: rest) x with
          | (.ok, t') => (.ok, .table t')
          | (r, _) => (r, .array a)) ∧
    (∀ j, j < a.length →
      alistLookup (natToString j) (rekeyFrom 0 a [])
        = some (a.getD j (.entry ""))) := by
  refine ⟨?_, ?_, ?_, ?_⟩
  · intro hp
    simp only [valueSet, List.head?_cons, hp]
  · intro hp
    simp only [valueSet, List.head?_cons, hp]
  · intro hp
    simp only [valueSet, List.head?_cons, hp]
  · intro j hj
    have := rekeyFrom_lookup a 0 j [] hj
    simpa using this

/-- C4 witness: an entry promoted to an array at segment `0`, to a table
at segment `w`; a one-element array re-keyed to a table under key `0`
where the element is still readable. -/
theorem c4_promotion_witness :
    parseUsize "0" = some 0 ∧ parseUsize "w" = none ∧
    (valueSet (.entry "v") ["0"] (.ok (.entry "z"))
      = match arraySet [] ["0"] (.ok (.entry "z")) with
        | (.ok, a') => (.ok, .array a')
        | (r, _) => (r, .entry "v")) ∧
    (valueSet (.entry "v") ["w"] (.ok (.entry "z"))
      = match tableSet [] ["w"] (.ok (.entry "z")) with
        | (.ok, t') => (.ok, .table t')
        | (r, _) => (r, .entry "v")) ∧
    (valueSet (.array [.entry "p"]) ["w"] (.ok (.entry "z"))
      = match tableSet (rekeyFrom 0 [.entry "p"] []) ["w"] (.ok (.entry "z")) with
        | (.ok, t') => (.ok, .table t')
        | (r, _) => (r, .array [.entry "p"])) ∧
    (0 < [Value.entry "p"].length ∧
      alistLookup (natToString 0) (rekeyFrom 0 [.entry "p"] [])
        = some ([Value.entry "p"].getD 0 (.entry ""))) :=
  ⟨by decide, by decide,
    (c4_promotion "v" "0" [] (.ok (.entry "z")) [] 0).1 (by decide),
    (c4_promotion "v" "w" [] (.ok (.entry "z")) [] 0).2.1 (by decide),
    (c4_promotion "v" "w" [] (.ok (.entry "z")) [.entry "p"] 0).2.2.1 (by decide),
    by decide,
    (c4_promotion "v" "w" [] (.ok (.entry "z")) [.entry "p"] 0).2.2.2 0 (by decide)⟩

set_option maxRecDepth 8192 in
/-- C5: array growth is strictly sequential — writing at an index greater
than the current length fails with an invalid-index error leaving the
array unchanged, writing at the current length appends; on an empty root,
`set s.0` succeeds, `set s.2` fails without changing anything while index
1 is missing, and after `set s.1` the write `set s.2` succeeds and
`get s.2` returns the value. -/
theorem c5_sequential_growth (a : List Value) (h : String) (i : Nat)
    (x : Except String Value) (xv : Value) (hp : parseUsize h = some i) :
    (i > a.length → ∀ rest, arraySet a (h :: rest) x
        = (.err ("invalid index " ++ natToString i), a)) ∧
    (i = a.length → arraySet a [h] (.ok xv) = (.ok, a ++ [xv])) ∧
    (configSet [] "s.0" (.scalar (.s "x")) = (.ok, [("s", .array [.entry "x"])]) ∧
      configSet [("s", .array [.entry "x"])] "s.2" (.scalar (.s "z"))
        = (.err "invalid index 2", [("s", .array [.entry "x"])]) ∧
      configSet [("s", .array [.entry "x"])] "s.1" (.scalar (.s "y"))
        = (.ok, [("s", .array [.entry "x", .entry "y"])]) ∧
      configSet [("s", .array [.entry "x", .entry "y"])] "s.2" (.scalar (.s "z"))
        = (.ok, [("s", .array [.entry "x", .entry "y", .entry "z"])]) ∧
      configGetString [("s", .array [.entry "x", .entry "y", .entry "z"])] "s.2"
        = .ok "z") := by
  refine ⟨?_, ?_, ?_⟩
  · intro hgt rest
    have hidx : a[i]? = none := List.getElem?_eq_none (by omega)
    have h0 : ¬ i = 0 := by omega
    have hprev : a[i - 1]? = none := List.getElem?_eq_none (by omega)
    simp [arraySet, hp, hidx, h0, hprev]
  · intro heq
    subst heq
    have hidx : a[a.length]? = none := List.getElem?_eq_none le_rfl
    by_cases h0 : a.length = 0
    · have hnil : a = [] := List.length_eq_zero.mp h0
      subst hnil
      simp [arraySet, hp, vecInsert, listInsertAt]
    · obtain ⟨prev, hprev⟩ : ∃ p, a[a.length - 1]? = some p :=
        ⟨_, List.getElem?_eq_getElem (by omega)⟩
      simp [arraySet, hp, hidx, h0, hprev, vecInsert_length]
  · have k0 : keyOfString "s.0" = ["s", "0"] := rfl
    have k1 : keyOfString "s.1" = ["s", "1"] := rfl
    have k2 : keyOfString "s.2" = ["s", "2"] := rfl
    refine ⟨?_, ?_, ?_, ?_, ?_⟩
    · simp [configSet, k0, encode, Scalar.canonicalText, tableSet, valueSet, arraySet,
        alistLookup, alistInsert, parseUsize, parseDigits, parseDigitsAux, digitVal,
        vecInsert, listInsertAt]
    · simp [configSet, k2, encode, Scalar.canonicalText, tableSet, valueSet, arraySet,
        alistLookup, alistInsert, parseUsize, parseDigits, parseDigitsAux, digitVal,
        natToString, natChars, Nat.digitChar]
    · simp [configSet, k1, encode, Scalar.canonicalText, tableSet, valueSet, arraySet,
        alistLookup, alistInsert, parseUsize, parseDigits, parseDigitsAux, digitVal,
        vecInsert, listInsertAt]
    · simp [configSet, k2, encode, Scalar.canonicalText, tableSet, valueSet, arraySet,
        alistLookup, alistInsert, parseUsize, parseDigits, parseDigitsAux, digitVal,
        vecInsert, listInsertAt]
    · simp [configGetString, configGetNode, k2, tableGetNode, valueGetNode, arrayGetNode,
        alistLookup, parseUsize, parseDigits, parseDigitsAux, digitVal, decodeString,
        Except.bind]

/-- C5 witness: on a one-element array, writing index 2 errors and writing
index 1 appends. -/
theorem c5_sequential_growth_witness :
    parseUsize "2" = some 2 ∧ parseUsize "1" = some 1 ∧
    (2 > [Value.entry "a"].length ∧
      arraySet [Value.entry "a"] ["2"] (.ok (.entry "z"))
        = (.err ("invalid index " ++ natToString 2), [Value.entry "a"])) ∧
    (1 = [Value.entry "a"].length ∧
      arraySet [Value.entry "a"] ["1"] (.ok (.entry "z"))
        = (.ok, [Value.entry "a"] ++ [Value.entry "z"])) :=
  ⟨by decide, by decide,
    ⟨by decide,
      (c5_sequential_growth [Value.entry "a"] "2" 2 (.ok (.entry "z")) (.entry "z")
        (by decide)).1 (by decide) []⟩,
    ⟨by decide,
      (c5_sequential_growth [Value.entry "a"] "1" 1 (.ok (.entry "z")) (.entry "z")
        (by decide)).2.1 (by decide)⟩⟩

/-- Scalar round trip for the embeddable scalar types (supporting result
for the round-trip property; the `f32`/`f64` cases are floating point and
lie outside the shallow embedding): for every boolean, integer of any of
the ten widths within its range, character, or string, and any
single-segment path, `set` on any root succeeds and stores the scalar's
canonical text; `get::<String>` then returns that text, and `get` at the
scalar's own type returns the value exactly. -/
theorem c1_scalar_roundtrip (sc : Scalar) (p : String) (t : Config)
    (hp : ('.') ∉ p.data) (hr : sc.inRangeB = true) :
    configSet t p (.scalar sc) = (.ok, alistInsert p (.entry sc.canonicalText) t) ∧
    configGetString (alistInsert p (.entry sc.canonicalText) t) p
      = .ok sc.canonicalText ∧
    configGetAs sc.ty (alistInsert p (.entry sc.canonicalText) t) p = .ok sc := by
  have hkey : keyOfString p = [p] := keyOfString_single hp
  have hnode : tableGetNode (alistInsert p (.entry sc.canonicalText) t) [p]
      = .ok (.entry sc.canonicalText) := by
    simp [tableGetNode, alistLookup_insert_self]
  refine ⟨?_, ?_, ?_⟩
  · simp [configSet, hkey, encode, tableSet]
  · simp only [configGetString, configGetNode, hkey, hnode]
    rfl
  · simp only [configGetAs, configGetNode, hkey, hnode]
    show decodeAs sc.ty (.entry sc.canonicalText) = .ok sc
    cases sc with
    | b bv => cases bv <;> rfl
    | int t v =>
      simp only [Scalar.inRangeB, decide_eq_true_eq] at hr
      simp [Scalar.ty, Scalar.canonicalText, decodeAs, decodeInt,
        parseIntTy_roundtrip t v hr.1 hr.2, Except.map]
    | c ch => rfl
    | s str => rfl

/-- Concrete instance of the scalar round trip: the unsigned 8-bit value
8 stored at path `num`. -/
theorem c1_scalar_roundtrip_witness :
    ('.') ∉ "num".data ∧ (Scalar.int .u8 8).inRangeB = true ∧
    (configSet [] "num" (.scalar (.int .u8 8))
        = (.ok, alistInsert "num" (.entry (Scalar.int .u8 8).canonicalText) []) ∧
      configGetString (alistInsert "num" (.entry (Scalar.int .u8 8).canonicalText) [])
          "num"
        = .ok (Scalar.int .u8 8).canonicalText ∧
      configGetAs (Scalar.int .u8 8).ty
          (alistInsert "num" (.entry (Scalar.int .u8 8).canonicalText) []) "num"
        = .ok (.int .u8 8)) :=
  ⟨by decide, by decide,
    c1_scalar_roundtrip (.int .u8 8) "num" [] (by decide) (by decide)⟩

end BraceConfig
